import Mathlib

set_option maxRecDepth 10000

/-!
Verification of the Schmidt-Samoa cryptosystem implementation
(schmidt_samoa.py) against its natural-language specification.

The Python code is shallowly embedded: Python arbitrary-precision
integers become Lean `Int` (or `Nat` where the code guarantees
non-negativity), Python `%` and `//` (floor semantics) become
`Int.fmod` and `Int.fdiv`, `pow(b, e, m)` becomes `(b ^ e).fmod m`,
raised exceptions become `Except Err` values, and `while` loops become
structural recursion on an explicit fuel argument that provably
dominates the number of iterations of the source loop.
-/

/-- Errors raised by the Python code, one constructor per raise site.
`capacityError` carries the maximum byte count reported in the message
of the corresponding `ValueError` in `encrypt_string`. -/
inductive Err where
  | invalidPublicKey : Err
  | invalidPrivateKey : Err
  | negativeMessage : Err
  | messageTooLarge : Err
  | negativeCiphertext : Err
  | modulusNotPositive : Err
  | noInverse : Err
  | emptyString : Err
  | capacityError (maxBytes : Nat) : Err
  | rangeStepZero : Err
  deriving DecidableEq, Repr

deriving instance DecidableEq for Except

/-- `PublicKey` dataclass. `__post_init__` rejects `n <= 1`, so every
constructed value satisfies `1 < n`; the dataclass is frozen, so the
invariant is carried as a field of the structure. -/
structure PublicKey where
  n : Int
  n_gt_one : 1 < n

/-- `PrivateKey` dataclass. `__post_init__` rejects
`d <= 0 or p <= 1 or q <= 1`; the invariants are carried as fields. -/
structure PrivateKey where
  d : Int
  p : Int
  q : Int
  d_pos : 0 < d
  p_gt_one : 1 < p
  q_gt_one : 1 < q

/-- Construction of `PublicKey(n)`: raises `ValueError` iff `n <= 1`
(`__post_init__`). -/
def mkPublicKey (n : Int) : Except Err PublicKey :=
  if h : n ≤ 1 then .error .invalidPublicKey
  else .ok ⟨n, by omega⟩

/-- Construction of `PrivateKey(d, p, q)`: raises `ValueError` iff
`d <= 0 or p <= 1 or q <= 1` (`__post_init__`). -/
def mkPrivateKey (d p q : Int) : Except Err PrivateKey :=
  if h : d ≤ 0 ∨ p ≤ 1 ∨ q ≤ 1 then .error .invalidPrivateKey
  else .ok ⟨d, p, q, by omega, by omega, by omega⟩

namespace SchmidtSamoa

/-- Python `n.bit_length()` for a non-negative `n`, written with a fuel
argument (`fuel = n` suffices since the value halves every step). -/
def bitLenAux : Nat → Nat → Nat
  | 0, _ => 0
  | fuel + 1, n => if n = 0 then 0 else bitLenAux fuel (n / 2) + 1

/-- Python `n.bit_length()`. -/
def bit_length (n : Nat) : Nat := bitLenAux n n

/-- `SchmidtSamoa._get_miller_rabin_iterations` (lines 56-73). -/
def get_miller_rabin_iterations (bits : Nat) : Nat :=
  if bits ≤ 512 then 64
  else if bits ≤ 1024 then 32
  else if bits ≤ 1536 then 16
  else 8

/-- The `while d % 2 == 0` loop of `is_prime` (lines 99-103): writes
`n - 1` as `d * 2^r`, returning `(r, d)`.  Fuel dominates the loop
count since `d` halves every iteration. -/
def factorTwosAux : Nat → Nat → Nat → Nat × Nat
  | 0, r, d => (r, d)
  | fuel + 1, r, d => if d % 2 = 0 then factorTwosAux fuel (r + 1) (d / 2) else (r, d)

/-- The inner `for _ in range(r - 1)` squaring loop of `is_prime`
(lines 113-116): repeatedly squares `x` mod `n` looking for `n - 1`;
returns `true` iff the `break` is reached. -/
def innerSquares (n : Nat) : Nat → Nat → Bool
  | 0, _ => false
  | count + 1, x =>
    let x2 := x ^ 2 % n
    if x2 = n - 1 then true else innerSquares n count x2

/-- The outer `for _ in range(k)` loop of `is_prime` (lines 106-118).
`rand i` models the value returned by the i-th call of
`secrets.randbelow(n - 2)`, so the witness is `rand i + 2`. -/
def mrRounds (n d r : Nat) (rand : Nat → Nat) : Nat → Nat → Bool
  | 0, _ => true
  | rounds + 1, idx =>
    let a := rand idx + 2
    let x := a ^ d % n
    if x = 1 ∨ x = n - 1 then mrRounds n d r rand rounds (idx + 1)
    else if innerSquares n (r - 1) x then mrRounds n d r rand rounds (idx + 1)
    else false

/-- `SchmidtSamoa.is_prime` (lines 76-120).  `rand` supplies the
outputs of the successive `secrets.randbelow(n - 2)` calls.  After the
deterministic fast paths the argument is at least 5, so the remaining
arithmetic is carried out on `Nat`. -/
def is_prime (n : Int) (k : Option Nat) (rand : Nat → Nat) : Bool :=
  if n < 2 then false
  else if n = 2 ∨ n = 3 then true
  else if n.fmod 2 = 0 then false
  else
    let m := n.toNat
    let kv := match k with
      | none => get_miller_rabin_iterations (bit_length m)
      | some v => v
    let rd := factorTwosAux (m - 1) 0 (m - 1)
    mrRounds m rd.2 rd.1 rand kv 0

/-- The `while b:` loop of `extended_gcd` (lines 169-173), carrying
`(a, b, x_prev, x, y_prev, y)`.  Fuel dominates the iteration count:
`natAbs b` strictly decreases every step, so `fuel = natAbs b` reaches
`b = 0` before the fuel runs out. -/
def egcdAux : Nat → Int → Int → Int → Int → Int → Int → Int × Int × Int
  | 0, a, _, x_prev, _, y_prev, _ => (a, x_prev, y_prev)
  | fuel + 1, a, b, x_prev, x, y_prev, y =>
    if b = 0 then (a, x_prev, y_prev)
    else
      let q := a.fdiv b
      egcdAux fuel b (a.fmod b) x (x_prev - q * x) y (y_prev - q * y)

/-- `SchmidtSamoa.extended_gcd` (lines 146-175). -/
def extended_gcd (a b : Int) : Int × Int × Int :=
  if a = 0 then (b, 0, 1)
  else if b = 0 then (a, 1, 0)
  else egcdAux b.natAbs a b 1 0 0 1

/-- `SchmidtSamoa.mod_inverse` (lines 178-200). -/
def mod_inverse (a m : Int) : Except Err Int :=
  if m ≤ 0 then .error .modulusNotPositive
  else
    let g := extended_gcd (a.fmod m) m
    if g.1 ≠ 1 then .error .noInverse
    else .ok (((g.2.1.fmod m) + m).fmod m)

/-- `SchmidtSamoa.encrypt` (lines 244-268): `pow(message, n, n)`. -/
def encrypt (message : Int) (public_key : PublicKey) : Except Err Int :=
  if message < 0 then .error .negativeMessage
  else if message ≥ public_key.n then .error .messageTooLarge
  else .ok ((message ^ public_key.n.toNat).fmod public_key.n)

/-- `SchmidtSamoa.decrypt` (lines 271-291): `pow(ciphertext, d, p * q)`. -/
def decrypt (ciphertext : Int) (private_key : PrivateKey) : Except Err Int :=
  if ciphertext < 0 then .error .negativeCiphertext
  else
    .ok ((ciphertext ^ private_key.d.toNat).fmod (private_key.p * private_key.q))

/-- Python `int.from_bytes(text_bytes, big)`: big-endian bytes to
integer.  Strings are modeled by their encoded byte sequences (UTF-8
encoding is a bijection between strings and their byte lists, and every
claim about the string layer is phrased in terms of the encoded bytes). -/
def int_from_bytes (bs : List Nat) : Nat :=
  bs.foldl (fun acc b => acc * 256 + b) 0

/-- Python `v.to_bytes(len, big)`: integer to exactly `len` big-endian
bytes (structural recursion on the byte count, as in CPython). -/
def int_to_bytes : Nat → Nat → List Nat
  | 0, _ => []
  | len + 1, v => int_to_bytes len (v / 256) ++ [v % 256]

/-- `max_bytes` as computed at lines 321 and 373:
`(n.bit_length() - 1) // 8`. -/
def max_bytes (n : Int) : Nat := (bit_length n.toNat - 1) / 8

/-- `SchmidtSamoa.encrypt_string` (lines 294-324), on the encoded byte
sequence of the text. -/
def encrypt_string (text : List Nat) (public_key : PublicKey) : Except Err Int :=
  if text = [] then .error .emptyString
  else
    let text_int : Int := (int_from_bytes text : Nat)
    if text_int ≥ public_key.n then .error (.capacityError (max_bytes public_key.n))
    else encrypt text_int public_key

/-- `SchmidtSamoa.decrypt_string` (lines 327-351), producing the byte
sequence that Python decodes back into a string. -/
def decrypt_string (encrypted_int : Int) (private_key : PrivateKey) :
    Except Err (List Nat) :=
  match decrypt encrypted_int private_key with
  | .error e => .error e
  | .ok v =>
    if v = 0 then .ok []
    else
      let num_bytes := (bit_length v.toNat + 7) / 8
      .ok (int_to_bytes num_bytes v.toNat)

/-- The chunk-splitting loop of `encrypt_large_string` (lines 379-383):
successive slices of `k` bytes.  Fuel dominates the iteration count
for `k > 0` since the list shrinks by `k` each step. -/
def chunksAux (k : Nat) : Nat → List Nat → List (List Nat)
  | _, [] => []
  | 0, l => [l]
  | fuel + 1, l => l.take k :: chunksAux k fuel (l.drop k)

/-- `SchmidtSamoa.encrypt_large_string` (lines 354-385).  When
`max_bytes = 0` the Python `range(0, len(text_bytes), 0)` call raises
`ValueError: range() arg 3 must not be zero`, modeled by
`rangeStepZero`. -/
def encrypt_large_string (text : List Nat) (public_key : PublicKey) :
    Except Err (List Int) :=
  if text = [] then .ok []
  else
    let mb := max_bytes public_key.n
    if mb = 0 then .error .rangeStepZero
    else
      (chunksAux mb text.length text).mapM
        (fun chunk => encrypt (int_from_bytes chunk : Nat) public_key)

/-- The accumulation loop of `decrypt_large_string` (lines 405-414):
decrypt each chunk, skip zero values, append minimal big-endian bytes. -/
def dlsAux (private_key : PrivateKey) : List Int → List Nat → Except Err (List Nat)
  | [], acc => .ok acc
  | c :: rest, acc =>
    match decrypt c private_key with
    | .error e => .error e
    | .ok v =>
      if v = 0 then dlsAux private_key rest acc
      else
        let num_bytes := (bit_length v.toNat + 7) / 8
        dlsAux private_key rest (acc ++ int_to_bytes num_bytes v.toNat)

/-- `SchmidtSamoa.decrypt_large_string` (lines 388-416), producing the
concatenated byte sequence that Python decodes into a string. -/
def decrypt_large_string (encrypted_chunks : List Int) (private_key : PrivateKey) :
    Except Err (List Nat) :=
  if encrypted_chunks = [] then .ok []
  else dlsAux private_key encrypted_chunks []

/-- The keypairs that `generate_keypair` (lines 202-241) can produce:
two distinct primes `p`, `q`, the modulus `n = (p * p) * q`, and the
private exponent obtained from `mod_inverse(n, lcm(p - 1, q - 1))`.
The probable-prime test of the source is modeled by true primality, and
the `bits >= 64` size floor is a policy choice that does not affect any
arithmetic property, so it is not part of the predicate. -/
def ValidKeypair (public_key : PublicKey) (private_key : PrivateKey) : Prop :=
  Nat.Prime private_key.p.toNat ∧
  Nat.Prime private_key.q.toNat ∧
  private_key.p ≠ private_key.q ∧
  public_key.n = private_key.p * private_key.p * private_key.q ∧
  mod_inverse public_key.n (Int.lcm (private_key.p - 1) (private_key.q - 1) : Nat)
    = .ok private_key.d

instance (pub : PublicKey) (priv : PrivateKey) : Decidable (ValidKeypair pub priv) := by
  unfold ValidKeypair; infer_instance

/-! ### Helper lemmas: the extended Euclidean loop -/

/-- The loop of `extended_gcd` preserves linear combinations: if the
running pairs represent `a` and `b` as combinations of the original
inputs `A`, `B`, then the returned coefficients represent the returned
first component. -/
theorem egcdAux_linear (A B : Int) :
    ∀ (fuel : Nat) (a b xp x yp y : Int),
      a = xp * A + yp * B → b = x * A + y * B →
      (egcdAux fuel a b xp x yp y).1 =
        (egcdAux fuel a b xp x yp y).2.1 * A + (egcdAux fuel a b xp x yp y).2.2 * B := by
  intro fuel
  induction fuel with
  | zero => intro a b xp x yp y h1 _; simpa [egcdAux] using h1
  | succ fuel ih =>
    intro a b xp x yp y h1 h2
    by_cases hb : b = 0
    · simpa [egcdAux, hb] using h1
    · have hrec : a.fmod b = (xp - a.fdiv b * x) * A + (yp - a.fdiv b * y) * B := by
        have hd := Int.fdiv_add_fmod a b
        have hm : a.fmod b = a - b * a.fdiv b := by omega
        rw [hm, h1, h2]; ring
      simpa [egcdAux, hb] using
        ih b (a.fmod b) x (xp - a.fdiv b * x) y (yp - a.fdiv b * y) h2 hrec

/-- Bezout identity for `extended_gcd`, valid for all integer inputs. -/
theorem extended_gcd_bezout (a b : Int) :
    a * (extended_gcd a b).2.1 + b * (extended_gcd a b).2.2 = (extended_gcd a b).1 := by
  unfold extended_gcd
  by_cases ha : a = 0
  · simp [ha]
  · by_cases hb : b = 0
    · simp [ha, hb]
    · simp only [ha, hb, if_false]
      have h := egcdAux_linear a b b.natAbs a b 1 0 0 1 (by ring) (by ring)
      rw [h]; ring

/-- On non-negative inputs with enough fuel, the first component of the
loop result is the gcd. -/
theorem egcdAux_gcd :
    ∀ (fuel : Nat) (A B : Nat) (xp x yp y : Int), B ≤ fuel →
      (egcdAux fuel (A : Int) (B : Int) xp x yp y).1 = (Nat.gcd A B : Int) := by
  intro fuel
  induction fuel with
  | zero =>
    intro A B xp x yp y hB
    interval_cases B
    simp [egcdAux]
  | succ fuel ih =>
    intro A B xp x yp y hB
    by_cases hb : B = 0
    · subst hb; simp [egcdAux]
    · have hbz : (B : Int) ≠ 0 := by exact_mod_cast hb
      have hcast : (A : Int).fmod (B : Int) = ((A % B : Nat) : Int) := by
        rw [Int.fmod_eq_emod _ (by positivity)]
        exact_mod_cast (Int.natCast_mod A B).symm
      have hlt : A % B ≤ fuel := by
        have := Nat.mod_lt A (Nat.pos_of_ne_zero hb)
        omega
      simp only [egcdAux, hbz, if_false]
      rw [hcast, ih B (A % B) _ _ _ _ hlt]
      rw [Nat.gcd_comm B (A % B), ← Nat.gcd_rec B A, Nat.gcd_comm B A]

/-- `extended_gcd` on non-negative inputs computes the gcd in its first
component. -/
theorem extended_gcd_fst (A B : Nat) :
    (extended_gcd (A : Int) (B : Int)).1 = (Nat.gcd A B : Int) := by
  unfold extended_gcd
  by_cases ha : A = 0
  · subst ha; simp
  · by_cases hb : B = 0
    · subst hb; simp [(by exact_mod_cast ha : (A : Int) ≠ 0)]
    · have haz : (A : Int) ≠ 0 := by exact_mod_cast ha
      have hbz : (B : Int) ≠ 0 := by exact_mod_cast hb
      simp only [haz, hbz, if_false, Int.natAbs_ofNat]
      exact egcdAux_gcd B A B 1 0 0 1 le_rfl

/-! ### Helper lemmas: `mod_inverse` -/

/-- The integer gcd is invariant under reducing the first argument
modulo the second. -/
theorem gcd_emod_left (a m : Int) : Int.gcd (a % m) m = Int.gcd a m := by
  have hsub : a % m = a - m * (a / m) := Int.emod_def a m
  apply Nat.dvd_antisymm
  · rw [← Int.natCast_dvd_natCast]
    apply Int.dvd_gcd
    · have h1 : ((Int.gcd (a % m) m : Nat) : Int) ∣ a % m := Int.gcd_dvd_left
      have h2 : ((Int.gcd (a % m) m : Nat) : Int) ∣ m := Int.gcd_dvd_right
      have h3 : ((Int.gcd (a % m) m : Nat) : Int) ∣ a % m + m * (a / m) :=
        dvd_add h1 (Dvd.dvd.mul_right h2 _)
      have h4 : a % m + m * (a / m) = a := by rw [hsub]; ring
      rwa [h4] at h3
    · exact Int.gcd_dvd_right
  · rw [← Int.natCast_dvd_natCast]
    apply Int.dvd_gcd
    · have h1 : ((Int.gcd a m : Nat) : Int) ∣ a := Int.gcd_dvd_left
      have h2 : ((Int.gcd a m : Nat) : Int) ∣ m := Int.gcd_dvd_right
      rw [hsub]
      exact dvd_sub h1 (Dvd.dvd.mul_right h2 _)
    · exact Int.gcd_dvd_right

/-- For a positive modulus, the gcd computed inside `mod_inverse`
equals `Int.gcd a m`. -/
theorem extended_gcd_fmod_fst (a m : Int) (hm : 0 < m) :
    (extended_gcd (a.fmod m) m).1 = (Int.gcd a m : Int) := by
  have hfe : a.fmod m = a % m := Int.fmod_eq_emod a hm.le
  obtain ⟨A, hA⟩ : ∃ A : Nat, a % m = (A : Int) :=
    ⟨(a % m).toNat, (Int.toNat_of_nonneg (Int.emod_nonneg a (by omega))).symm⟩
  obtain ⟨M, hM⟩ : ∃ M : Nat, m = (M : Int) :=
    ⟨m.toNat, (Int.toNat_of_nonneg hm.le).symm⟩
  have h1 : (extended_gcd (a.fmod m) m).1 = (Nat.gcd A M : Int) := by
    rw [hfe, hA, hM, extended_gcd_fst]
  rw [h1]
  congr 1
  have h2 : Int.gcd a m = Int.gcd (a % m) m := (gcd_emod_left a m).symm
  rw [h2, hA, hM]
  simp [Int.gcd]

/-- What a successful `mod_inverse` returns: a value in `[0, m)` that
is a modular inverse of `a` in the congruence sense. -/
theorem mod_inverse_ok (a m x : Int) (h : mod_inverse a m = .ok x) :
    0 < m ∧ 0 ≤ x ∧ x < m ∧ (a * x) % m = 1 % m := by
  unfold mod_inverse at h
  by_cases hm : m ≤ 0
  · simp [hm] at h
  · have hmpos : 0 < m := by omega
    simp only [hm, if_false] at h
    by_cases hg : (extended_gcd (a.fmod m) m).1 ≠ 1
    · simp [hg] at h
    · push_neg at hg
      simp only [hg, ne_eq, not_true_eq_false, if_false, Except.ok.injEq] at h
      set X := (extended_gcd (a.fmod m) m).2.1 with hX
      set Y := (extended_gcd (a.fmod m) m).2.2 with hY
      have hbez : (a.fmod m) * X + m * Y = 1 := by
        have := extended_gcd_bezout (a.fmod m) m
        rw [hg] at this; exact this
      have hxval : x = X % m := by
        rw [← h, Int.fmod_eq_emod _ hmpos.le, Int.fmod_eq_emod _ hmpos.le]
        conv_lhs => rw [show X % m + m = X % m + m * 1 by ring]
        rw [Int.add_mul_emod_self_left, Int.emod_emod_of_dvd _ dvd_rfl]
      refine ⟨hmpos, ?_, ?_, ?_⟩
      · rw [hxval]; exact Int.emod_nonneg X (by omega)
      · rw [hxval]; exact Int.emod_lt_of_pos X hmpos
      · rw [hxval]
        have hfe : a.fmod m = a % m := Int.fmod_eq_emod a hmpos.le
        have h1 : X % m ≡ X [ZMOD m] := Int.emod_emod_of_dvd X dvd_rfl
        have h2 : a * (X % m) ≡ a * X [ZMOD m] := h1.mul_left a
        have h3 : a % m ≡ a [ZMOD m] := Int.emod_emod_of_dvd a dvd_rfl
        have h4 : (a % m) * X ≡ a * X [ZMOD m] := h3.mul_right X
        have h5 : (a % m) * X = 1 - m * Y := by rw [← hfe]; linarith [hbez]
        have h6 : (1 : Int) - m * Y ≡ 1 [ZMOD m] := by
          show (1 - m * Y) % m = 1 % m
          conv_lhs => rw [show (1 : Int) - m * Y = 1 + m * (-Y) by ring]
          rw [show m * (-Y) = -Y * m by ring, Int.add_mul_emod_self]
        exact h2.trans (h4.symm.trans (h5 ▸ h6))

/-- `mod_inverse` fails exactly on a non-positive modulus or a
non-coprime pair. -/
theorem mod_inverse_error_iff (a m : Int) :
    (∃ e, mod_inverse a m = .error e) ↔ m ≤ 0 ∨ Int.gcd a m ≠ 1 := by
  unfold mod_inverse
  by_cases hm : m ≤ 0
  · simp [hm]
  · have hmpos : 0 < m := by omega
    have hg1 : (extended_gcd (a.fmod m) m).1 = 1 ↔ Int.gcd a m = 1 := by
      rw [extended_gcd_fmod_fst a m hmpos]; exact Nat.cast_eq_one
    by_cases hg : Int.gcd a m = 1
    · have hx : ¬ (extended_gcd (a.fmod m) m).1 ≠ 1 := by
        push_neg; exact hg1.mpr hg
      simp [hm, hx, hg]
    · have hx : (extended_gcd (a.fmod m) m).1 ≠ 1 := fun hc => hg (hg1.mp hc)
      simp [hm, hx, hg]

/-! ### Helper lemmas: bit length and byte conversion -/

theorem bitLenAux_spec :
    ∀ (fuel n : Nat), n ≤ fuel → 0 < n →
      0 < bitLenAux fuel n ∧ 2 ^ (bitLenAux fuel n - 1) ≤ n ∧ n < 2 ^ bitLenAux fuel n := by
  intro fuel
  induction fuel with
  | zero => intro n hn h0; omega
  | succ fuel ih =>
    intro n hn h0
    have hnz : n ≠ 0 := by omega
    simp only [bitLenAux, hnz, if_false]
    by_cases h1 : n = 1
    · subst h1
      have : bitLenAux fuel 0 = 0 := by cases fuel <;> simp [bitLenAux]
      simp [this]
    · have hge2 : 2 ≤ n := by omega
      have hrec : n / 2 ≤ fuel := by omega
      have hpos : 0 < n / 2 := by omega
      obtain ⟨hL0, hL1, hL2⟩ := ih (n / 2) hrec hpos
      set L := bitLenAux fuel (n / 2) with hL
      refine ⟨by omega, ?_, ?_⟩
      · have : 2 ^ (L + 1 - 1) = 2 * 2 ^ (L - 1) := by
          rw [Nat.add_sub_cancel]
          conv_lhs => rw [show L = L - 1 + 1 by omega]
          rw [pow_succ]; ring
        rw [this]; omega
      · have : 2 ^ (L + 1) = 2 * 2 ^ L := by rw [pow_succ]; ring
        rw [this]; omega

theorem bit_length_spec (n : Nat) (h : 0 < n) :
    0 < bit_length n ∧ 2 ^ (bit_length n - 1) ≤ n ∧ n < 2 ^ bit_length n :=
  bitLenAux_spec n n le_rfl h

/-- Upper bound: `n < 2^k` forces `bit_length n ≤ k`. -/
theorem bit_length_le (n k : Nat) (h : n < 2 ^ k) : bit_length n ≤ k := by
  rcases Nat.eq_zero_or_pos n with h0 | h0
  · subst h0; simp [bit_length, bitLenAux]
  · obtain ⟨hB0, hB1, _⟩ := bit_length_spec n h0
    by_contra hc
    push_neg at hc
    have : 2 ^ k ≤ 2 ^ (bit_length n - 1) := Nat.pow_le_pow_right (by omega) (by omega)
    omega

/-- Lower bound: `2^k ≤ n` forces `k < bit_length n`. -/
theorem lt_bit_length (n k : Nat) (h : 2 ^ k ≤ n) : k < bit_length n := by
  have h0 : 0 < n := lt_of_lt_of_le (Nat.pos_pow_of_pos k (by omega)) h
  obtain ⟨hB0, _, hB2⟩ := bit_length_spec n h0
  by_contra hc
  push_neg at hc
  have : 2 ^ bit_length n ≤ 2 ^ k := Nat.pow_le_pow_right (by omega) hc
  omega

/-- The byte count computed by `decrypt_string` recovers the original
length: a value known to lie in `[256^(L-1), 256^L)` needs exactly `L`
bytes. -/
theorem num_bytes_eq (v L : Nat) (hL : 0 < L)
    (h1 : 256 ^ (L - 1) ≤ v) (h2 : v < 256 ^ L) :
    (bit_length v + 7) / 8 = L := by
  have h256 : (256 : Nat) = 2 ^ 8 := by norm_num
  have hup : bit_length v ≤ 8 * L := by
    apply bit_length_le
    calc v < 256 ^ L := h2
      _ = 2 ^ (8 * L) := by rw [h256, ← pow_mul]
  have hlo : 8 * (L - 1) < bit_length v := by
    apply lt_bit_length
    calc 2 ^ (8 * (L - 1)) = 256 ^ (L - 1) := by rw [h256, ← pow_mul]
      _ ≤ v := h1
  omega

theorem int_from_bytes_append (bs : List Nat) (b : Nat) :
    int_from_bytes (bs ++ [b]) = 256 * int_from_bytes bs + b := by
  unfold int_from_bytes
  rw [List.foldl_append]
  simp [Nat.mul_comm]

/-- Generalized lower bound for the big-endian fold. -/
theorem int_from_bytes_foldl_ge (t : List Nat) :
    ∀ acc : Nat, acc * 256 ^ t.length ≤ t.foldl (fun acc b => acc * 256 + b) acc := by
  induction t with
  | nil => intro acc; simp
  | cons b t ih =>
    intro acc
    have h1 := ih (acc * 256 + b)
    have h2 : acc * 256 ^ (b :: t).length ≤ (acc * 256 + b) * 256 ^ t.length := by
      simp only [List.length_cons, pow_succ]
      calc acc * (256 ^ t.length * 256) = acc * 256 * 256 ^ t.length := by ring
        _ ≤ (acc * 256 + b) * 256 ^ t.length := by
            apply Nat.mul_le_mul_right; omega
    simpa using le_trans h2 h1

/-- Generalized upper bound for the big-endian fold. -/
theorem int_from_bytes_foldl_lt (t : List Nat) (hbytes : ∀ b ∈ t, b < 256) :
    ∀ acc : Nat, t.foldl (fun acc b => acc * 256 + b) acc < (acc + 1) * 256 ^ t.length := by
  induction t with
  | nil => intro acc; simp
  | cons b t ih =>
    intro acc
    have hb : b < 256 := hbytes b (by simp)
    have h1 := ih (fun x hx => hbytes x (by simp [hx])) (acc * 256 + b)
    have h2 : (acc * 256 + b + 1) * 256 ^ t.length ≤ (acc + 1) * 256 ^ (b :: t).length := by
      simp only [List.length_cons, pow_succ]
      calc (acc * 256 + b + 1) * 256 ^ t.length
          ≤ (acc + 1) * 256 * 256 ^ t.length := by
            apply Nat.mul_le_mul_right; omega
        _ = (acc + 1) * (256 ^ t.length * 256) := by ring
    simpa using lt_of_lt_of_le h1 h2

theorem int_from_bytes_lt (bs : List Nat) (hbytes : ∀ b ∈ bs, b < 256) :
    int_from_bytes bs < 256 ^ bs.length := by
  have := int_from_bytes_foldl_lt bs hbytes 0
  simpa [int_from_bytes] using this

theorem le_int_from_bytes (b0 : Nat) (t : List Nat) (hb0 : 0 < b0) :
    256 ^ t.length ≤ int_from_bytes (b0 :: t) := by
  have h1 := int_from_bytes_foldl_ge t b0
  have h2 : 256 ^ t.length ≤ b0 * 256 ^ t.length :=
    Nat.le_mul_of_pos_left _ hb0
  unfold int_from_bytes
  simp only [List.foldl_cons, Nat.zero_mul, Nat.zero_add]
  exact le_trans h2 h1

/-- Converting the value of a byte string back with its own length is
the identity. -/
theorem int_to_bytes_int_from_bytes (bs : List Nat) (hbytes : ∀ b ∈ bs, b < 256) :
    int_to_bytes bs.length (int_from_bytes bs) = bs := by
  induction bs using List.reverseRecOn with
  | nil => simp [int_to_bytes, int_from_bytes]
  | append_singleton bs b ih =>
    have hb : b < 256 := hbytes b (by simp)
    have hbs : ∀ x ∈ bs, x < 256 := fun x hx => hbytes x (by simp [hx])
    rw [int_from_bytes_append]
    simp only [List.length_append, List.length_singleton]
    rw [int_to_bytes]
    have hdiv : (256 * int_from_bytes bs + b) / 256 = int_from_bytes bs := by omega
    have hmod : (256 * int_from_bytes bs + b) % 256 = b := by omega
    rw [hdiv, hmod, ih hbs]

/-! ### Helper lemmas: the Schmidt-Samoa round-trip congruence -/

/-- Fermat step: for a prime `p` and a positive exponent congruent to 1
modulo `p - 1`, the power map is the identity modulo `p`. -/
theorem pow_modEq_self_of_modEq_one (p : Nat) (hp : p.Prime) (e : Nat)
    (he : 0 < e) (hmod : e ≡ 1 [MOD p - 1]) (x : Nat) : x ^ e ≡ x [MOD p] := by
  haveI : Fact p.Prime := ⟨hp⟩
  obtain ⟨k, hk⟩ : ∃ k, e = 1 + (p - 1) * k := by
    rcases eq_or_ne p 2 with h2 | h2
    · exact ⟨e - 1, by subst h2; omega⟩
    · have hp3 : 3 ≤ p := by
        have := hp.two_le
        omega
      have hmod1 : e % (p - 1) = 1 := by
        have h1 : (1 : Nat) % (p - 1) = 1 := Nat.mod_eq_of_lt (by omega)
        unfold Nat.ModEq at hmod
        omega
      have hdm := Nat.div_add_mod e (p - 1)
      exact ⟨e / (p - 1), by rw [hmod1] at hdm; linarith⟩
  rw [← ZMod.natCast_eq_natCast_iff]
  push_cast
  set y := (x : ZMod p) with hy
  rcases eq_or_ne y 0 with h0 | h0
  · rw [h0]
    exact zero_pow (by omega)
  · rw [hk, pow_add, pow_mul, pow_one, ZMod.pow_card_sub_one_eq_one h0, one_pow, mul_one]

/-- The core Schmidt-Samoa identity, over natural numbers: with
`n = p * p * q` and `d` inverse to `n` modulo `lcm (p-1) (q-1)`,
raising to the `n`-th power, reducing modulo `n`, raising to the `d`-th
power and reducing modulo `p * q` recovers any message below `p * q`. -/
theorem roundtrip_core (P Q D M : Nat) (hP : P.Prime) (hQ : Q.Prime)
    (hne : P ≠ Q) (hD : 0 < D)
    (hd : (P * P * Q) * D ≡ 1 [MOD Nat.lcm (P - 1) (Q - 1)])
    (hM : M < P * Q) :
    ((M ^ (P * P * Q) % (P * P * Q)) ^ D) % (P * Q) = M := by
  set N := P * P * Q with hN
  have hNpos : 0 < N := by
    have := hP.two_le; have := hQ.two_le; positivity
  have hePos : 0 < N * D := Nat.mul_pos hNpos hD
  have hdP : N * D ≡ 1 [MOD P - 1] :=
    Nat.ModEq.of_dvd (Nat.dvd_lcm_left _ _) hd
  have hdQ : N * D ≡ 1 [MOD Q - 1] :=
    Nat.ModEq.of_dvd (Nat.dvd_lcm_right _ _) hd
  have hmodP : M ^ (N * D) ≡ M [MOD P] :=
    pow_modEq_self_of_modEq_one P hP (N * D) hePos hdP M
  have hmodQ : M ^ (N * D) ≡ M [MOD Q] :=
    pow_modEq_self_of_modEq_one Q hQ (N * D) hePos hdQ M
  have hcop : Nat.Coprime P Q := (Nat.coprime_primes hP hQ).mpr hne
  have hmodPQ : M ^ (N * D) ≡ M [MOD P * Q] :=
    (Nat.modEq_and_modEq_iff_modEq_mul hcop).mp ⟨hmodP, hmodQ⟩
  have hdvd : P * Q ∣ N := ⟨P, by rw [hN]; ring⟩
  have hmodred : M ^ N % N ≡ M ^ N [MOD P * Q] :=
    Nat.ModEq.of_dvd hdvd (Nat.mod_modEq (M ^ N) N)
  have hpow : (M ^ N % N) ^ D ≡ M [MOD P * Q] := by
    calc (M ^ N % N) ^ D ≡ (M ^ N) ^ D [MOD P * Q] := hmodred.pow D
      _ = M ^ (N * D) := by rw [← pow_mul]
      _ ≡ M [MOD P * Q] := hmodPQ
  calc (M ^ N % N) ^ D % (P * Q) = M % (P * Q) := hpow
    _ = M := Nat.mod_eq_of_lt hM

/-- Unfolding of a successful `encrypt`. -/
theorem encrypt_ok_of_lt (m : Int) (pub : PublicKey) (h0 : 0 ≤ m) (hm : m < pub.n) :
    encrypt m pub = .ok ((m ^ pub.n.toNat).fmod pub.n) := by
  unfold encrypt
  rw [if_neg (by omega), if_neg (by omega)]

/-- Unfolding of a successful `decrypt`. -/
theorem decrypt_ok_of_nonneg (c : Int) (priv : PrivateKey) (h0 : 0 ≤ c) :
    decrypt c priv = .ok ((c ^ priv.d.toNat).fmod (priv.p * priv.q)) := by
  unfold decrypt
  rw [if_neg (by omega)]

/-- The `Nat`-level content of a valid keypair. -/
theorem validKeypair_nat (pub : PublicKey) (priv : PrivateKey) (h : ValidKeypair pub priv) :
    ∃ P Q D : Nat, priv.p = (P : Int) ∧ priv.q = (Q : Int) ∧ priv.d = (D : Int) ∧
      pub.n = ((P * P * Q : Nat) : Int) ∧ P.Prime ∧ Q.Prime ∧ P ≠ Q ∧ 0 < D ∧
      (P * P * Q) * D ≡ 1 [MOD Nat.lcm (P - 1) (Q - 1)] := by
  obtain ⟨hPp, hQp, hne, hn, hmi⟩ := h
  have hp2 : (0 : Int) ≤ priv.p := by have := priv.p_gt_one; omega
  have hq2 : (0 : Int) ≤ priv.q := by have := priv.q_gt_one; omega
  have hd0 : (0 : Int) ≤ priv.d := by have := priv.d_pos; omega
  refine ⟨priv.p.toNat, priv.q.toNat, priv.d.toNat,
    (Int.toNat_of_nonneg hp2).symm, (Int.toNat_of_nonneg hq2).symm,
    (Int.toNat_of_nonneg hd0).symm, ?_, hPp, hQp, ?_, ?_, ?_⟩
  · rw [hn]
    push_cast [Int.toNat_of_nonneg hp2, Int.toNat_of_nonneg hq2]
    ring
  · intro hc
    apply hne
    rw [← Int.toNat_of_nonneg hp2, ← Int.toNat_of_nonneg hq2, hc]
  · have := priv.d_pos; omega
  · set P := priv.p.toNat with hP
    set Q := priv.q.toNat with hQ
    set D := priv.d.toNat with hD
    have hP1 : 1 ≤ P := by have := priv.p_gt_one; omega
    have hQ1 : 1 ≤ Q := by have := priv.q_gt_one; omega
    have hlcm : Int.lcm (priv.p - 1) (priv.q - 1) = Nat.lcm (P - 1) (Q - 1) := by
      have e1 : priv.p - 1 = ((P - 1 : Nat) : Int) := by
        rw [← Int.toNat_of_nonneg hp2]; push_cast [hP1]; ring
      have e2 : priv.q - 1 = ((Q - 1 : Nat) : Int) := by
        rw [← Int.toNat_of_nonneg hq2]; push_cast [hQ1]; ring
      rw [e1, e2]
      simp [Int.lcm, Int.natAbs_ofNat]
    rw [hlcm] at hmi
    obtain ⟨hLpos, _, _, hcong⟩ := mod_inverse_ok _ _ _ hmi
    set L := Nat.lcm (P - 1) (Q - 1) with hLd
    have hnL : pub.n = ((P * P * Q : Nat) : Int) := by
      rw [hn, ← Int.toNat_of_nonneg hp2, ← Int.toNat_of_nonneg hq2]
      push_cast; ring
    have hcast : (((P * P * Q) * D % L : Nat) : Int) = ((1 % L : Nat) : Int) := by
      push_cast
      have e1 : ((P : Int) * P * Q * D) = pub.n * priv.d := by
        rw [hnL, ← Int.toNat_of_nonneg hd0]; push_cast; ring
      rw [e1]; exact hcong
    exact_mod_cast hcast

/-- If `encrypt` succeeded on a message below `p * q`, `decrypt`
recovers it (the Schmidt-Samoa correctness argument). -/
theorem decrypt_of_encrypt (pub : PublicKey) (priv : PrivateKey)
    (h : ValidKeypair pub priv) (m c : Int)
    (h0 : 0 ≤ m) (hm : m < priv.p * priv.q) (hc : encrypt m pub = .ok c) :
    decrypt c priv = .ok m := by
  obtain ⟨P, Q, D, hp, hq, hd, hn, hPp, hQp, hne, hD, hmod⟩ := validKeypair_nat pub priv h
  set M := m.toNat with hMd
  have hmM : m = (M : Int) := (Int.toNat_of_nonneg h0).symm
  have hMlt : M < P * Q := by
    have : m < ((P * Q : Nat) : Int) := by rw [hp, hq] at hm; exact_mod_cast hm
    rw [hmM] at this; exact_mod_cast this
  have hmn : m < pub.n := by
    have h2 : 2 ≤ P := hPp.two_le
    have h1 : 1 ≤ Q := hQp.one_lt.le
    have : (P * Q : Nat) ≤ P * P * Q := by nlinarith
    have h3 : ((P * Q : Nat) : Int) ≤ ((P * P * Q : Nat) : Int) := by exact_mod_cast this
    rw [hn]
    calc m < priv.p * priv.q := hm
      _ = ((P * Q : Nat) : Int) := by rw [hp, hq]; push_cast; ring
      _ ≤ _ := h3
  rw [encrypt_ok_of_lt m pub h0 hmn] at hc
  have hnt : pub.n.toNat = P * P * Q := by rw [hn]; exact Int.toNat_natCast _
  have hcval : c = ((M ^ (P * P * Q) % (P * P * Q) : Nat) : Int) := by
    have heq : (m ^ pub.n.toNat).fmod pub.n = ((M ^ (P * P * Q) % (P * P * Q) : Nat) : Int) := by
      rw [hnt, hmM, hn]
      rw [Int.fmod_eq_emod _ (by positivity)]
      norm_cast
    rw [← heq]
    exact (Except.ok.inj hc).symm
  have hc0 : 0 ≤ c := by rw [hcval]; positivity
  rw [decrypt_ok_of_nonneg c priv hc0]
  have hdt : priv.d.toNat = D := by rw [hd]; exact Int.toNat_natCast _
  have hpq : priv.p * priv.q = ((P * Q : Nat) : Int) := by
    rw [hp, hq]; push_cast; ring
  congr 1
  rw [hcval, hdt, hpq, Int.fmod_eq_emod _ (by positivity), hmM]
  exact_mod_cast roundtrip_core P Q D M hPp hQp hne hD hmod hMlt

/-- For a valid keypair the decryption modulus `p * q` never exceeds
the encryption modulus `n = p * p * q`. -/
theorem pq_le_n (pub : PublicKey) (priv : PrivateKey) (h : ValidKeypair pub priv) :
    priv.p * priv.q ≤ pub.n := by
  obtain ⟨_, _, _, hn, _⟩ := h
  have h1 := priv.p_gt_one
  have h2 := priv.q_gt_one
  have hp0 : (0 : Int) < priv.p := by omega
  have hq0 : (0 : Int) < priv.q := by omega
  have key : 0 ≤ (priv.p - 1) * (priv.p * priv.q) :=
    mul_nonneg (by omega) (mul_pos hp0 hq0).le
  rw [hn]; nlinarith [key]

/-! ### Claim theorems -/

/-- C3: `encrypt` raises a range error exactly when the message is
negative or at least `n`; a message equal to `n` is rejected while
`n - 1` succeeds; and in the accepted range the result is
`message ^ n mod n`. -/
theorem encrypt_spec (pub : PublicKey) (m : Int) :
    ((∃ e, encrypt m pub = .error e) ↔ (m < 0 ∨ m ≥ pub.n)) ∧
    (∃ e, encrypt pub.n pub = .error e) ∧
    (∃ c, encrypt (pub.n - 1) pub = .ok c) ∧
    (0 ≤ m → m < pub.n → encrypt m pub = .ok ((m ^ pub.n.toNat).fmod pub.n)) := by
  have hn := pub.n_gt_one
  refine ⟨?_, ?_, ?_, ?_⟩
  · unfold encrypt
    by_cases h0 : m < 0
    · simp [h0]
    · by_cases h1 : m ≥ pub.n
      · simp [h0, h1]
      · simp [h0, h1]
  · unfold encrypt
    rw [if_neg (by omega), if_pos (by omega)]
    exact ⟨.messageTooLarge, rfl⟩
  · exact ⟨_, encrypt_ok_of_lt (pub.n - 1) pub (by omega) (by omega)⟩
  · intro h0 h1
    exact encrypt_ok_of_lt m pub h0 h1

/-- Witness for C3 at the concrete public key `n = 45` and message 7. -/
theorem encrypt_spec_witness :
    encrypt 7 ⟨45, by norm_num⟩ =
      .ok (((7 : Int) ^ ((45 : Int)).toNat).fmod 45) :=
  (encrypt_spec ⟨45, by norm_num⟩ 7).2.2.2 (by norm_num) (by norm_num)

/-- C4: `decrypt` returns `c ^ d mod (p * q)` for every non-negative
ciphertext and raises for every negative one. -/
theorem decrypt_spec (priv : PrivateKey) (c : Int) :
    (0 ≤ c → decrypt c priv = .ok ((c ^ priv.d.toNat).fmod (priv.p * priv.q))) ∧
    (c < 0 → ∃ e, decrypt c priv = .error e) := by
  constructor
  · intro h0; exact decrypt_ok_of_nonneg c priv h0
  · intro h0; unfold decrypt; rw [if_pos h0]; exact ⟨.negativeCiphertext, rfl⟩

/-- Witness for C4 at the concrete private key `(1, 3, 5)`. -/
theorem decrypt_spec_witness :
    decrypt 2 ⟨1, 3, 5, by norm_num, by norm_num, by norm_num⟩ =
      .ok (((2 : Int) ^ ((1 : Int)).toNat).fmod (3 * 5)) :=
  (decrypt_spec ⟨1, 3, 5, by norm_num, by norm_num, by norm_num⟩ 2).1 (by norm_num)

/-- C5 counterexample: on the input `(0, -1)` the code returns
`(-1, 0, 1)`, whose first component is not `gcd(0, -1) = 1`, so the
claimed identity `g = gcd(a, b)` fails for general integers. -/
theorem extended_gcd_gcd_counterexample :
    extended_gcd 0 (-1) = (-1, 0, 1) ∧
    (extended_gcd 0 (-1)).1 ≠ (Int.gcd 0 (-1) : Int) := by
  constructor
  · decide
  · decide

/-- C5 (amended): for all integers — negative inputs included — the
returned triple satisfies the Bezout identity `a*x + b*y = g`; when
additionally `a ≥ 0` and `b ≥ 0` the first component equals
`gcd(a, b)`; and `extended_gcd 35 15 = (5, 1, -2)`. -/
theorem extended_gcd_spec (a b : Int) :
    a * (extended_gcd a b).2.1 + b * (extended_gcd a b).2.2 = (extended_gcd a b).1 ∧
    (0 ≤ a → 0 ≤ b → (extended_gcd a b).1 = (Int.gcd a b : Int)) ∧
    extended_gcd 35 15 = (5, 1, -2) := by
  refine ⟨extended_gcd_bezout a b, ?_, by decide⟩
  intro ha hb
  obtain ⟨A, hA⟩ : ∃ A : Nat, a = (A : Int) := ⟨a.toNat, (Int.toNat_of_nonneg ha).symm⟩
  obtain ⟨B, hB⟩ : ∃ B : Nat, b = (B : Int) := ⟨b.toNat, (Int.toNat_of_nonneg hb).symm⟩
  rw [hA, hB, extended_gcd_fst]
  congr 1

/-- Witness for C5: the Bezout identity holds at the negative input
`(0, -1)` and at `(35, 15)`, where the gcd equality (its hypotheses
discharged) and the concrete triple also hold. -/
theorem extended_gcd_spec_witness :
    (0 : Int) * (extended_gcd 0 (-1)).2.1 + (-1) * (extended_gcd 0 (-1)).2.2 =
      (extended_gcd 0 (-1)).1 ∧
    (35 : Int) * (extended_gcd 35 15).2.1 + 15 * (extended_gcd 35 15).2.2 =
      (extended_gcd 35 15).1 ∧
    (extended_gcd 35 15).1 = (Int.gcd 35 15 : Int) ∧
    extended_gcd 35 15 = (5, 1, -2) :=
  ⟨(extended_gcd_spec 0 (-1)).1,
   (extended_gcd_spec 35 15).1,
   (extended_gcd_spec 35 15).2.1 (by norm_num) (by norm_num),
   (extended_gcd_spec 35 15).2.2⟩

/-- C6 counterexample: at modulus `m = 1` (where `gcd(a, 1) = 1`, so no
error is raised), the code returns `0`, and `(a * 0) mod 1 = 0 ≠ 1`, so
the claimed postcondition `(a * x) mod m = 1` fails. -/
theorem mod_inverse_one_counterexample :
    mod_inverse 5 1 = .ok 0 ∧ ((5 : Int) * 0) % 1 ≠ 1 := by
  constructor
  · decide
  · decide

/-- C6 (amended): `mod_inverse` raises exactly when `m ≤ 0` or
`gcd(a, m) ≠ 1`, and otherwise returns `x` with `0 ≤ x < m` and
`(a * x) mod m = 1 mod m` (for `m = 1` both sides are 0, not 1). -/
theorem mod_inverse_spec (a m : Int) :
    ((∃ e, mod_inverse a m = .error e) ↔ m ≤ 0 ∨ Int.gcd a m ≠ 1) ∧
    (∀ x, mod_inverse a m = .ok x → 0 ≤ x ∧ x < m ∧ (a * x) % m = 1 % m) := by
  refine ⟨mod_inverse_error_iff a m, ?_⟩
  intro x hx
  obtain ⟨_, h1, h2, h3⟩ := mod_inverse_ok a m x hx
  exact ⟨h1, h2, h3⟩

/-- Witness for C6 at the concrete input `(45, 4)` with inverse 1. -/
theorem mod_inverse_spec_witness :
    (0 : Int) ≤ 1 ∧ (1 : Int) < 4 ∧ ((45 : Int) * 1) % 4 = 1 % 4 :=
  (mod_inverse_spec 45 4).2 1 (by decide)

/-- C7: the deterministic fast paths of `is_prime` (`n < 2` false,
2 and 3 true, even false), the iteration schedule of
`_get_miller_rabin_iterations`, and the fact that an omitted iteration
count is derived from the bit length of `n` through that schedule. -/
theorem is_prime_spec (n : Int) (k : Option Nat) (rand : Nat → Nat) :
    (n < 2 → is_prime n k rand = false) ∧
    is_prime 2 k rand = true ∧
    is_prime 3 k rand = true ∧
    (3 < n → n.fmod 2 = 0 → is_prime n k rand = false) ∧
    (∀ bits : Nat,
      (bits ≤ 512 → get_miller_rabin_iterations bits = 64) ∧
      (512 < bits → bits ≤ 1024 → get_miller_rabin_iterations bits = 32) ∧
      (1024 < bits → bits ≤ 1536 → get_miller_rabin_iterations bits = 16) ∧
      (1536 < bits → get_miller_rabin_iterations bits = 8)) ∧
    is_prime n none rand =
      is_prime n (some (get_miller_rabin_iterations (bit_length n.toNat))) rand := by
  refine ⟨?_, ?_, ?_, ?_, ?_, ?_⟩
  · intro h; unfold is_prime; rw [if_pos h]
  · unfold is_prime
    rw [if_neg (by norm_num), if_pos (by norm_num)]
  · unfold is_prime
    rw [if_neg (by norm_num), if_pos (by norm_num)]
  · intro h3 heven
    unfold is_prime
    rw [if_neg (by omega), if_neg (by omega), if_pos heven]
  · intro bits
    refine ⟨fun h => ?_, fun h1 h2 => ?_, fun h1 h2 => ?_, fun h1 => ?_⟩ <;>
      unfold get_miller_rabin_iterations
    · rw [if_pos h]
    · rw [if_neg (by omega), if_pos h2]
    · rw [if_neg (by omega), if_neg (by omega), if_pos h2]
    · rw [if_neg (by omega), if_neg (by omega), if_neg (by omega)]
  · unfold is_prime
    rfl

/-- Witness for C7 at concrete inputs: a negative number and an even
number both take a fast path to `false`, and 512 bits give 64 rounds. -/
theorem is_prime_spec_witness :
    is_prime (-5) none (fun _ => 0) = false ∧
    is_prime 10 none (fun _ => 0) = false ∧
    get_miller_rabin_iterations 512 = 64 :=
  ⟨(is_prime_spec (-5) none (fun _ => 0)).1 (by norm_num),
   (is_prime_spec 10 none (fun _ => 0)).2.2.2.1 (by norm_num) (by decide),
   ((is_prime_spec 10 none (fun _ => 0)).2.2.2.2.1 512).1 (by norm_num)⟩

/-- C8: `encrypt_string` rejects the empty string, and rejects any
byte string whose big-endian value reaches `n`, reporting exactly
`(bit_length n - 1) / 8` as the maximum byte count. -/
theorem encrypt_string_errors (pub : PublicKey) (bs : List Nat) :
    encrypt_string [] pub = .error .emptyString ∧
    (bs ≠ [] → ((int_from_bytes bs : Nat) : Int) ≥ pub.n →
      encrypt_string bs pub = .error (.capacityError (max_bytes pub.n))) ∧
    max_bytes pub.n = (bit_length pub.n.toNat - 1) / 8 := by
  refine ⟨by unfold encrypt_string; simp, ?_, rfl⟩
  intro hne hge
  unfold encrypt_string
  rw [if_neg hne, if_pos (by exact_mod_cast hge)]

/-- Witness for C8: the two-byte string `[7, 7]` has value 1799 ≥ 45
and is rejected with the capacity report. -/
theorem encrypt_string_errors_witness :
    encrypt_string [7, 7] ⟨45, by norm_num⟩ =
      .error (.capacityError (max_bytes (45 : Int))) :=
  (encrypt_string_errors ⟨45, by norm_num⟩ [7, 7]).2.1 (by decide) (by decide)

/-- C9: key objects are validated at construction: `PublicKey(n)`
raises iff `n ≤ 1`, `PrivateKey(d, p, q)` raises iff
`d ≤ 0 ∨ p ≤ 1 ∨ q ≤ 1`, and consequently every existing key value
satisfies the corresponding invariants. -/
theorem key_validation (n d p q : Int) :
    ((∃ e, mkPublicKey n = .error e) ↔ n ≤ 1) ∧
    ((∃ e, mkPrivateKey d p q = .error e) ↔ (d ≤ 0 ∨ p ≤ 1 ∨ q ≤ 1)) ∧
    (∀ pk : PublicKey, 1 < pk.n) ∧
    (∀ sk : PrivateKey, 0 < sk.d ∧ 1 < sk.p ∧ 1 < sk.q) := by
  refine ⟨?_, ?_, fun pk => pk.n_gt_one, fun sk => ⟨sk.d_pos, sk.p_gt_one, sk.q_gt_one⟩⟩
  · unfold mkPublicKey
    by_cases h : n ≤ 1 <;> simp [h]
  · unfold mkPrivateKey
    by_cases h : d ≤ 0 ∨ p ≤ 1 ∨ q ≤ 1 <;> simp [h]

/-- Witness for C9: `PublicKey(0)` and `PrivateKey(0, 2, 2)` are both
rejected at construction. -/
theorem key_validation_witness :
    (∃ e, mkPublicKey 0 = .error e) ∧ (∃ e, mkPrivateKey 0 2 2 = .error e) :=
  ⟨(key_validation 0 0 2 2).1.mpr (by norm_num),
   (key_validation 0 0 2 2).2.1.mpr (by norm_num)⟩

/-- A chunk that decrypts to 0 is skipped by the accumulation loop of
`decrypt_large_string`. -/
theorem dlsAux_cons_zero (priv : PrivateKey) (c : Int) (hc : decrypt c priv = .ok 0)
    (rest : List Int) (acc : List Nat) :
    dlsAux priv (c :: rest) acc = dlsAux priv rest acc := by
  simp [dlsAux, hc]

/-- Inserting a zero-decrypting chunk anywhere in the list leaves the
accumulation loop unchanged. -/
theorem dlsAux_insert_zero (priv : PrivateKey) (c : Int) (hc : decrypt c priv = .ok 0) :
    ∀ (cs1 cs2 : List Int) (acc : List Nat),
      dlsAux priv (cs1 ++ c :: cs2) acc = dlsAux priv (cs1 ++ cs2) acc := by
  intro cs1
  induction cs1 with
  | nil =>
    intro cs2 acc
    simpa using dlsAux_cons_zero priv c hc cs2 acc
  | cons c1 t ih =>
    intro cs2 acc
    simp only [List.cons_append]
    cases hdec : decrypt c1 priv with
    | error e => simp [dlsAux, hdec]
    | ok v =>
      by_cases hv : v = 0
      · simp [dlsAux, hdec, hv, ih]
      · simp [dlsAux, hdec, hv, ih]

/-- C10: the large-string interface silently absorbs empty and zero
payloads: `encrypt_large_string` maps the empty string to the empty
list (while `encrypt_string` raises on it), `decrypt_large_string`
maps the empty list to the empty string, and a chunk decrypting to the
integer 0 contributes no bytes to the concatenated output. -/
theorem large_string_empty_and_zero (pub : PublicKey) (priv : PrivateKey)
    (cs1 cs2 : List Int) (c : Int) :
    encrypt_large_string [] pub = .ok [] ∧
    (∃ e, encrypt_string [] pub = .error e) ∧
    decrypt_large_string [] priv = .ok [] ∧
    (decrypt c priv = .ok 0 →
      decrypt_large_string (cs1 ++ c :: cs2) priv = decrypt_large_string (cs1 ++ cs2) priv) := by
  refine ⟨by unfold encrypt_large_string; simp, ⟨.emptyString, by unfold encrypt_string; simp⟩,
    by unfold decrypt_large_string; simp, ?_⟩
  intro hc
  unfold decrypt_large_string
  rw [if_neg (by simp)]
  by_cases h2 : cs1 ++ cs2 = []
  · obtain ⟨e1, e2⟩ := List.append_eq_nil.mp h2
    subst e1; subst e2
    rw [show ([] ++ c :: [] : List Int) = [c] by simp]
    rw [dlsAux_cons_zero priv c hc [] []]
    simp [dlsAux]
  · rw [if_neg h2]
    exact dlsAux_insert_zero priv c hc cs1 cs2 []

/-- Witness for C10: with the private key `(1, 3, 5)` the ciphertext 0
decrypts to 0 and is absorbed. -/
theorem large_string_empty_and_zero_witness :
    decrypt_large_string ([3] ++ 0 :: [7]) ⟨1, 3, 5, by norm_num, by norm_num, by norm_num⟩ =
      decrypt_large_string ([3] ++ [7]) ⟨1, 3, 5, by norm_num, by norm_num, by norm_num⟩ :=
  (large_string_empty_and_zero ⟨45, by norm_num⟩
    ⟨1, 3, 5, by norm_num, by norm_num, by norm_num⟩ [3] [7] 0).2.2.2 (by decide)

/-- C1 counterexample: for the validly generated keypair
`(n = 45, (d, p, q) = (1, 3, 5))` the message `m = 15` satisfies
`0 ≤ m < n` but decrypts to 0, because `decrypt` reduces modulo
`p * q = 15 < n`: the claimed round-trip on all of `[0, n)` fails. -/
theorem roundtrip_fails_below_n :
    ValidKeypair ⟨45, by norm_num⟩ ⟨1, 3, 5, by norm_num, by norm_num, by norm_num⟩ ∧
    (0 : Int) ≤ 15 ∧ (15 : Int) < 45 ∧
    (encrypt 15 ⟨45, by norm_num⟩).bind
      (fun c => decrypt c ⟨1, 3, 5, by norm_num, by norm_num, by norm_num⟩) ≠ .ok 15 := by
  refine ⟨by decide, by norm_num, by norm_num, by decide⟩

/-- C1 (amended): for every validly generated keypair and every message
`m` with `0 ≤ m < p * q` (rather than `0 ≤ m < n`), decryption inverts
encryption. -/
theorem decrypt_encrypt_roundtrip (pub : PublicKey) (priv : PrivateKey)
    (h : ValidKeypair pub priv) (m : Int) (h0 : 0 ≤ m) (hm : m < priv.p * priv.q) :
    (encrypt m pub).bind (fun c => decrypt c priv) = .ok m := by
  have hmn : m < pub.n := lt_of_lt_of_le hm (pq_le_n pub priv h)
  rw [encrypt_ok_of_lt m pub h0 hmn]
  exact decrypt_of_encrypt pub priv h m _ h0 hm (encrypt_ok_of_lt m pub h0 hmn)

/-- Witness for C1 at the keypair `(45, (1, 3, 5))` and message 7. -/
theorem decrypt_encrypt_roundtrip_witness :
    (encrypt 7 ⟨45, by norm_num⟩).bind
      (fun c => decrypt c ⟨1, 3, 5, by norm_num, by norm_num, by norm_num⟩) = .ok 7 :=
  decrypt_encrypt_roundtrip ⟨45, by norm_num⟩
    ⟨1, 3, 5, by norm_num, by norm_num, by norm_num⟩ (by decide) 7 (by decide) (by decide)

/-- Unfolding of `decrypt_string` after a successful `decrypt`. -/
theorem decrypt_string_of_decrypt (c : Int) (priv : PrivateKey) (v : Int)
    (hd : decrypt c priv = .ok v) :
    decrypt_string c priv =
      if v = 0 then .ok []
      else .ok (int_to_bytes ((bit_length v.toNat + 7) / 8) v.toNat) := by
  unfold decrypt_string
  rw [hd]

/-- C2 counterexample: for the validly generated keypair
`(n = 531, (d, p, q) = (13, 3, 59))` the one-byte string `[200]` is
non-empty, has no leading zero byte, and fits in
`max_bytes = (bit_length 531 - 1) / 8 = 1` bytes, yet it round-trips to
`[23]` because its value 200 is at least `p * q = 177`. -/
theorem string_roundtrip_fails_at_max_bytes :
    ValidKeypair ⟨531, by norm_num⟩ ⟨13, 3, 59, by norm_num, by norm_num, by norm_num⟩ ∧
    (200 : Nat) ≠ 0 ∧ (∀ b ∈ [200], b < 256) ∧
    ([200] : List Nat).length ≤ max_bytes (531 : Int) ∧
    (encrypt_string [200] ⟨531, by norm_num⟩).bind
      (fun c => decrypt_string c ⟨13, 3, 59, by norm_num, by norm_num, by norm_num⟩) ≠
      .ok [200] := by
  refine ⟨by decide, by decide, by decide, by decide, by decide⟩

/-- C2 (amended): for every validly generated keypair and every
non-empty byte string with byte values below 256, no leading zero
byte, length within `max_bytes`, and big-endian value below `p * q`
(the extra hypothesis the counterexample forces), decryption inverts
string encryption. -/
theorem decrypt_string_encrypt_string_roundtrip (pub : PublicKey) (priv : PrivateKey)
    (h : ValidKeypair pub priv) (b0 : Nat) (t : List Nat)
    (hb0 : b0 ≠ 0) (hbytes : ∀ b ∈ b0 :: t, b < 256)
    (_hlen : (b0 :: t).length ≤ max_bytes pub.n)
    (hval : ((int_from_bytes (b0 :: t) : Nat) : Int) < priv.p * priv.q) :
    (encrypt_string (b0 :: t) pub).bind (fun c => decrypt_string c priv) = .ok (b0 :: t) := by
  set v := int_from_bytes (b0 :: t) with hv
  have hv1 : 256 ^ t.length ≤ v := le_int_from_bytes b0 t (Nat.pos_of_ne_zero hb0)
  have hv0 : 0 < v := lt_of_lt_of_le (by positivity) hv1
  have hv2 : v < 256 ^ (t.length + 1) := by
    have hlt := int_from_bytes_lt (b0 :: t) hbytes
    simpa [hv] using hlt
  have hvn : ((v : Nat) : Int) < pub.n := lt_of_lt_of_le hval (pq_le_n pub priv h)
  unfold encrypt_string
  rw [if_neg (by simp), if_neg (by omega)]
  rw [encrypt_ok_of_lt _ pub (by positivity) hvn]
  have hdec : decrypt ((((v : Nat) : Int) ^ pub.n.toNat).fmod pub.n) priv
      = .ok ((v : Nat) : Int) := by
    exact decrypt_of_encrypt pub priv h _ _ (by positivity) hval
      (encrypt_ok_of_lt _ pub (by positivity) hvn)
  show decrypt_string _ priv = _
  rw [decrypt_string_of_decrypt _ priv _ hdec]
  have hvz : ((v : Nat) : Int) ≠ 0 := by exact_mod_cast hv0.ne.symm
  rw [if_neg hvz, Int.toNat_natCast]
  have hL : (bit_length v + 7) / 8 = t.length + 1 :=
    num_bytes_eq v (t.length + 1) (by omega) (by simpa using hv1) hv2
  rw [hL]
  congr 1
  have hlen1 : (b0 :: t).length = t.length + 1 := rfl
  rw [hv, ← hlen1]
  exact int_to_bytes_int_from_bytes (b0 :: t) hbytes

/-- Witness for C2 at the keypair `(531, (13, 3, 59))` and the
one-byte string `[100]` (value 100 < 177 = p * q). -/
theorem decrypt_string_encrypt_string_roundtrip_witness :
    (encrypt_string [100] ⟨531, by norm_num⟩).bind
      (fun c => decrypt_string c ⟨13, 3, 59, by norm_num, by norm_num, by norm_num⟩) =
      .ok [100] :=
  decrypt_string_encrypt_string_roundtrip ⟨531, by norm_num⟩
    ⟨13, 3, 59, by norm_num, by norm_num, by norm_num⟩ (by decide) 100 []
    (by decide) (by decide) (by decide) (by decide)

end SchmidtSamoa

